import Mathlib

/-!
Verification of the `meegnobis.utils` module against its specification.

The module provides four independent numeric helpers:
  - `_conv` / `convolve` (the spec's VectorizedConvolve): 1-D convolution
    applied along the last axis of an N-dimensional array, truncated to the
    input length (left-aligned "same" semantics);
  - `moving_average` (MovingAverage): boxcar smoothing of epoch data;
  - `_npairs` (PairCount): number of unordered pairs including self-pairs;
  - `_get_unique_targets` (UniqueTargetIntersection): sorted intersection of
    the unique values of two label sequences.

Numeric values are modelled by `ℚ`; numpy arrays by (nested) lists; the
fallible numpy primitives by `Except String`.  N-dimensional arrays are the
depth-indexed family `NDArr`; `NDArr n` models an array of `n + 1`
dimensions, so the time axis (the last axis) is always the innermost list.
-/

namespace Meegnobis

/-- Full discrete convolution, the documented semantics of `np.convolve` in
"full" mode: the result has length `len a + len v - 1` and entry `n` is
`∑ k, a k * v (n - k)` (out-of-range coordinates read as `0`). -/
def fullConv (a v : List ℚ) : List ℚ :=
  (List.range (a.length + v.length - 1)).map fun n =>
    ∑ k ∈ Finset.range (n + 1), a.getD k 0 * v.getD (n - k) 0

/-- The `np.convolve` primitive: it rejects an empty first or second
argument with a `ValueError` and otherwise returns the full convolution. -/
def npConvolve (a v : List ℚ) : Except String (List ℚ) :=
  if a.isEmpty then .error "a cannot be empty"
  else if v.isEmpty then .error "v cannot be empty"
  else .ok (fullConv a v)

/-- Embeds `_conv` from `meegnobis/utils.py`: run `np.convolve` and keep the
first `len array` samples, so the onset of events is preserved. -/
def _conv (array filt : List ℚ) : Except String (List ℚ) :=
  (npConvolve array filt).map fun res => res.take array.length

/-- The pure value produced by a successful `_conv` call: the left-aligned
truncation of the full convolution to the length of the input. -/
def truncConv (a v : List ℚ) : List ℚ :=
  (fullConv a v).take a.length

/-- Effectful map over a list, propagating the first error — the iteration
semantics shared by `np.vectorize`, `np.apply_along_axis` and the manual
loops in `convolve`. -/
def exMap (f : α → Except String β) : List α → Except String (List β)
  | [] => .ok []
  | x :: xs =>
    match f x with
    | .error e => .error e
    | .ok y =>
      match exMap f xs with
      | .error e => .error e
      | .ok ys => .ok (y :: ys)

/-- `NDArr n` models a numpy array of `n + 1` dimensions whose last axis
holds rational samples. -/
@[reducible] def NDArr : Nat → Type
  | 0 => List ℚ
  | n + 1 => List (NDArr n)

/-- The 1-D slices of an array taken along its last axis, in row-major
order. -/
def slicesOf : (n : Nat) → NDArr n → List (List ℚ)
  | 0, a => [a]
  | n + 1, a => a.flatMap (slicesOf n)

/-- Structural shape equality of two arrays of the same dimensionality. -/
def sameShape : (n : Nat) → NDArr n → NDArr n → Bool
  | 0, a, b => a.length == b.length
  | n + 1, a, b => a.length == b.length && (a.zip b).all fun p => sameShape n p.1 p.2

/-- Embeds the `np.__version__ >= '1.12.0'` branch of `convolve`:
`np.vectorize` with signature `(n),(m)->(k)` applies
`np.convolve(x, y)[..., :len(x)]` to every 1-D slice along the last axis. -/
def convolveBroadcast : (n : Nat) → NDArr n → List ℚ → Except String (NDArr n)
  | 0, a, f => _conv a f
  | n + 1, a, f => exMap (fun x => convolveBroadcast n x f) a

/-- Error message of the manual-iteration branch of `convolve` for arrays of
more than 3 dimensions. -/
def fallbackDimMsg : String :=
  "This function doesn't work on multidimensional arrays with more than 3 dimensions under numpy < 1.12.0"

/-- Embeds the `else` (numpy < 1.12.0) branch of `convolve`: arrays of more
than 3 dimensions are rejected; a 1-D array is convolved directly; a 2-D
array row by row; for a 3-D array each 2-D slice goes through
`np.apply_along_axis(conv, 1, array0)`, i.e. row by row. -/
def convolveFallback : (n : Nat) → NDArr n → List ℚ → Except String (NDArr n)
  | 0, a, f => _conv a f
  | 1, a, f => exMap (fun row => _conv row f) a
  | 2, a, f => exMap (fun a0 => exMap (fun row => _conv row f) a0) a
  | _ + 3, _, _ => .error fallbackDimMsg

/-- Embeds `convolve` from `meegnobis/utils.py`: dispatch on the installed
numpy version between the broadcasting and the manual-iteration strategy. -/
def convolve (modernNumpy : Bool) (n : Nat) (array : NDArr n) (filt : List ℚ) :
    Except String (NDArr n) :=
  if modernNumpy then convolveBroadcast n array filt
  else convolveFallback n array filt

/-- Embeds `np.transpose(data, [1, 0, 2])` on a 3-D array stored as a nested
list: swap the two outer axes.  The number of columns is read from the first
row, as numpy reads it from the shape metadata. -/
def transposeOuter (d : List (List α)) (dflt : α) : List (List α) :=
  (List.range (d.headD []).length).map fun c => d.map fun row => row.getD c dflt

/-- An `mne.Epochs` object as used by `moving_average`: a 3-D data buffer
laid out `(epochs, channels, times)` plus the sampling frequency
`info['sfreq']` and the time coordinate vector `times`. -/
structure Epochs where
  data : List (List (List ℚ))
  sfreq : ℚ
  times : List ℚ

/-- The `ValueError` message raised by `moving_average` when the window does
not fit, formatted with the window and the epoch length
`epoch.times[-1] - epoch.times[0]`. -/
def maWindowError (twindow : ℚ) (times : List ℚ) : String :=
  "Cannot compute moving average with time window " ++ toString twindow ++
    " and epoch length " ++ toString (times.getD (times.length - 1) 0 - times.getD 0 0)

/-- The boxcar filter built by `moving_average`:
`np.ones(int(nsamples)) / nsamples` with `nsamples = ceil(twindow * sfreq)`. -/
def maFilter (twindow sfreq : ℚ) : List ℚ :=
  List.replicate (⌈twindow * sfreq⌉).toNat ((1 : ℚ) / ((⌈twindow * sfreq⌉ : ℤ) : ℚ))

/-- The data-transforming core of `moving_average`: compute
`nsamples = np.ceil(twindow * sfreq)`, raise when `nsamples` exceeds the
number of time samples (or, through `np.ones`, when it is negative), build
the boxcar filter, move the time axis last by transposing
`(epochs, channels, times)` to `(channels, epochs, times)`, convolve, and
transpose back. -/
def maCore (modernNumpy : Bool) (data : List (List (List ℚ))) (sfreq : ℚ)
    (times : List ℚ) (twindow : ℚ) : Except String (List (List (List ℚ))) :=
  if (times.length : ℤ) < ⌈twindow * sfreq⌉ then .error (maWindowError twindow times)
  else if ⌈twindow * sfreq⌉ < 0 then .error "negative dimensions are not allowed"
  else
    match convolve modernNumpy 2 (transposeOuter data []) (maFilter twindow sfreq) with
    | .error e => .error e
    | .ok d2 => .ok (transposeOuter d2 [])

/-- Embeds `moving_average` from `meegnobis/utils.py` on the value level:
the result is a copy of the epoch whose data has been replaced by the
smoothed data; metadata is carried over unchanged. -/
def moving_average (modernNumpy : Bool) (epoch : Epochs) (twindow : ℚ) :
    Except String Epochs :=
  match maCore modernNumpy epoch.data epoch.sfreq epoch.times twindow with
  | .error e => .error e
  | .ok d => .ok ⟨d, epoch.sfreq, epoch.times⟩

/-- A heap of 3-D data buffers; an index into the store is a buffer
reference, so aliasing and mutation can be expressed. -/
abbrev Store := List (List (List (List ℚ)))

/-- An `mne.Epochs` object whose `_data` attribute is a reference into the
store. -/
structure EpochsRef where
  dataRef : ℕ
  sfreq : ℚ
  times : List ℚ

/-- Embeds `moving_average` on the store level, making the mutation
behaviour explicit: `epoch.copy()` allocates a fresh buffer at the end of
the store, and only that fresh buffer is ever written
(`epoch_._data = data`).  The store after the call is returned in both the
success and the error case. -/
def moving_averageRef (modernNumpy : Bool) (s : Store) (e : EpochsRef)
    (twindow : ℚ) : Store × Except String EpochsRef :=
  let copied := s ++ [s.getD e.dataRef []]
  let e1 : EpochsRef := ⟨s.length, e.sfreq, e.times⟩
  match maCore modernNumpy (copied.getD e1.dataRef []) e.sfreq e.times twindow with
  | .error m => (copied, .error m)
  | .ok d => (copied.set e1.dataRef d, .ok e1)

/-- Python's `int()` on a real value: truncation toward zero. -/
def pyInt (q : ℚ) : ℤ :=
  if q < 0 then ⌈q⌉ else ⌊q⌋

/-- Embeds `_npairs` from `meegnobis/utils.py`: reject `n_items < 2`,
otherwise return `int(n_items * (n_items - 1) / 2. + n_items)` computed with
exact real arithmetic. -/
def _npairs (n_items : ℤ) : Except String ℤ :=
  if n_items < 2 then
    .error ("More than two items required, passed " ++ toString n_items)
  else
    .ok (pyInt ((n_items : ℚ) * ((n_items : ℚ) - 1) / 2 + (n_items : ℚ)))

/-- The documented semantics of `np.unique` on a label sequence: the sorted
list of distinct values. -/
def npUnique (l : List ℤ) : List ℤ :=
  l.toFinset.sort (· ≤ ·)

/-- Embeds `_get_unique_targets` from `meegnobis/utils.py`:
`sorted(set(np.unique(targets_train)).intersection(np.unique(targets_test)))`. -/
def _get_unique_targets (targets_train targets_test : List ℤ) : List ℤ :=
  ((npUnique targets_train).toFinset ∩ (npUnique targets_test).toFinset).sort (· ≤ ·)

end Meegnobis

namespace Meegnobis

/-! ### Basic lemmas about the convolution primitives -/

theorem exMap_ok_map {f : α → Except String β} {g : α → β} :
    ∀ {l : List α}, (∀ x ∈ l, f x = .ok (g x)) → exMap f l = .ok (l.map g)
  | [], _ => rfl
  | x :: xs, h => by
    have hx := h x (List.mem_cons_self x xs)
    have hxs := exMap_ok_map (g := g) fun y hy => h y (List.mem_cons_of_mem x hy)
    simp [exMap, hx, hxs]

theorem exMap_ok_forall₂ {f : α → Except String β} :
    ∀ {l : List α} {ys : List β}, exMap f l = .ok ys →
      List.Forall₂ (fun x y => f x = .ok y) l ys := by
  intro l
  induction l with
  | nil => intro ys h; simp [exMap] at h; simp [← h]
  | cons x xs ih =>
    intro ys h
    simp only [exMap] at h
    cases hx : f x with
    | error e => rw [hx] at h; exact absurd h (by simp)
    | ok y =>
      rw [hx] at h
      cases hxs : exMap f xs with
      | error e => rw [hxs] at h; exact absurd h (by simp)
      | ok ys' =>
        rw [hxs] at h
        cases h
        exact List.Forall₂.cons hx (ih hxs)

theorem fullConv_length (a v : List ℚ) :
    (fullConv a v).length = a.length + v.length - 1 := by
  simp [fullConv]

theorem truncConv_length (a : List ℚ) {v : List ℚ} (hv : v ≠ []) :
    (truncConv a v).length = a.length := by
  have : 0 < v.length := List.length_pos.mpr hv
  simp only [truncConv, List.length_take, fullConv_length]
  omega

theorem _conv_eq_ok {a v r : List ℚ} :
    _conv a v = .ok r ↔ a ≠ [] ∧ v ≠ [] ∧ r = truncConv a v := by
  unfold _conv npConvolve
  cases a with
  | nil => simp [Except.map]
  | cons x xs =>
    cases v with
    | nil => simp [Except.map]
    | cons y ys => simp [Except.map, truncConv, eq_comm]

theorem _conv_ok {a v : List ℚ} (ha : a ≠ []) (hv : v ≠ []) :
    _conv a v = .ok (truncConv a v) :=
  _conv_eq_ok.mpr ⟨ha, hv, rfl⟩

end Meegnobis

namespace Meegnobis

theorem getD_singleton_one (j : ℕ) :
    ([1] : List ℚ).getD j 0 = if j = 0 then 1 else 0 := by
  cases j with
  | zero => rfl
  | succ j => simp [List.getD]

theorem fullConv_single (a : List ℚ) : fullConv a [1] = a := by
  apply List.ext_getElem
  · simp [fullConv_length]
  · intro n h1 h2
    simp only [fullConv, List.getElem_map, List.getElem_range]
    rw [Finset.sum_eq_single n]
    · simp [getD_singleton_one, List.getD_eq_getElem?_getD, List.getElem?_eq_getElem h2]
    · intro k hk hkn
      have hk' : k < n + 1 := Finset.mem_range.mp hk
      have : n - k ≠ 0 := by omega
      rw [getD_singleton_one, if_neg this, mul_zero]
    · intro hn
      exact absurd (Finset.self_mem_range_succ n) hn

theorem truncConv_single (a : List ℚ) : truncConv a [1] = a := by
  rw [truncConv, fullConv_single, List.take_length]

theorem convolveBroadcast_zero (a : NDArr 0) (f : List ℚ) :
    convolveBroadcast 0 a f = _conv a f := rfl

theorem convolveBroadcast_succ (n : Nat) (a : NDArr (n + 1)) (f : List ℚ) :
    convolveBroadcast (n + 1) a f = exMap (fun x => convolveBroadcast n x f) a := rfl

theorem convolveFallback_eq_broadcast :
    ∀ (n : Nat), n ≤ 2 → ∀ (a : NDArr n) (f : List ℚ),
      convolveFallback n a f = convolveBroadcast n a f
  | 0, _, _, _ => rfl
  | 1, _, _, _ => rfl
  | 2, _, _, _ => rfl

theorem convolve_two_eq (modern : Bool) (a : NDArr 2) (f : List ℚ) :
    convolve modern 2 a f = convolveBroadcast 2 a f := by
  cases modern with
  | true => rfl
  | false => exact convolveFallback_eq_broadcast 2 (by omega) a f

end Meegnobis

namespace Meegnobis

theorem slicesOf_zero (a : NDArr 0) : slicesOf 0 a = [a] := rfl

theorem slicesOf_succ (n : Nat) (a : NDArr (n + 1)) :
    slicesOf (n + 1) a = a.flatMap (slicesOf n) := rfl

theorem sameShape_zero (a b : NDArr 0) :
    sameShape 0 a b = (a.length == b.length) := rfl

theorem sameShape_succ (n : Nat) (a b : NDArr (n + 1)) :
    sameShape (n + 1) a b =
      ((a.length == b.length) && (a.zip b).all fun p => sameShape n p.1 p.2) := rfl

theorem convolveBroadcast_spec :
    ∀ (n : Nat) (a r : NDArr n) (f : List ℚ),
      convolveBroadcast n a f = .ok r →
      sameShape n r a = true ∧
        slicesOf n r = (slicesOf n a).map fun s => truncConv s f := by
  intro n
  induction n with
  | zero =>
    intro a r f h
    rw [convolveBroadcast_zero] at h
    obtain ⟨ha, hf, hr⟩ := _conv_eq_ok.mp h
    subst hr
    refine ⟨?_, rfl⟩
    simp [sameShape_zero, truncConv_length a hf]
  | succ n ih =>
    intro a r f h
    rw [convolveBroadcast_succ] at h
    have h2 := exMap_ok_forall₂ h
    clear h
    induction h2 with
    | nil => exact ⟨rfl, rfl⟩
    | @cons x y l₁ l₂ hxy htail ihtail =>
      obtain ⟨hs, hsl⟩ := ih x y f hxy
      obtain ⟨hs', hsl'⟩ := ihtail
      constructor
      · simp only [sameShape_succ, List.zip_cons_cons, List.all_cons,
          Bool.and_eq_true, beq_iff_eq, List.length_cons] at hs' ⊢
        exact ⟨by omega, hs, hs'.2⟩
      · simp only [slicesOf_succ, List.flatMap_cons, List.map_append] at hsl' ⊢
        rw [hsl, hsl']

end Meegnobis

namespace Meegnobis

/-- C1: for every array of dimension N ≥ 1 and every 1-D filter, a successful
`convolve` call (either strategy) returns an array of the same shape as the
input in which each 1-D slice along the last axis equals the first
`len slice` elements of the full convolution of that slice with the filter
(left-aligned truncation); at dimension 1 (`n = 0`) the shape conclusion is
exactly that the output has the same length as the input. -/
theorem C1_convolve_same_shape_left_aligned (modern : Bool) (n : Nat)
    (a r : NDArr n) (f : List ℚ) (h : convolve modern n a f = .ok r) :
    sameShape n r a = true ∧
      slicesOf n r = (slicesOf n a).map fun s => truncConv s f := by
  apply convolveBroadcast_spec n a r f
  cases modern with
  | true => simpa [convolve] using h
  | false =>
    simp only [convolve, Bool.false_eq_true, if_false] at h
    rcases n with _ | _ | _ | m
    · rwa [← convolveFallback_eq_broadcast 0 (by omega)]
    · rwa [← convolveFallback_eq_broadcast 1 (by omega)]
    · rwa [← convolveFallback_eq_broadcast 2 (by omega)]
    · exact absurd h (by simp [convolveFallback])

/-- Witness for C1 at the concrete 2-D input `[[2]]` with filter `[3]`. -/
theorem C1_convolve_same_shape_left_aligned_witness :
    sameShape 1 [truncConv [2] [3]] [[(2 : ℚ)]] = true ∧
      slicesOf 1 [truncConv [2] [3]] =
        (slicesOf 1 [[(2 : ℚ)]]).map fun s => truncConv s [3] :=
  C1_convolve_same_shape_left_aligned true 1 [[(2 : ℚ)]] [truncConv [2] [3]] [3]
    (by
      have h1 : _conv [(2 : ℚ)] [3] = .ok (truncConv [2] [3]) :=
        _conv_ok (by simp) (by simp)
      simp [convolve, convolveBroadcast_succ, convolveBroadcast_zero, exMap, h1])

end Meegnobis

namespace Meegnobis

/-- C8: the manual-iteration (fallback) strategy of `convolve` rejects every
array of more than 3 dimensions with an explicit error, and on arrays of
dimension 1, 2 or 3 it returns exactly what the generic broadcasting
strategy returns. -/
theorem C8_fallback_rejects_high_dims (n : Nat) :
    (∀ (a : NDArr (n + 3)) (f : List ℚ),
        convolveFallback (n + 3) a f = .error fallbackDimMsg) ∧
    (n ≤ 2 → ∀ (a : NDArr n) (f : List ℚ),
        convolveFallback n a f = convolveBroadcast n a f) :=
  ⟨fun _ _ => rfl, fun hn a f => convolveFallback_eq_broadcast n hn a f⟩

/-- Witness for C8: a concrete 4-D array is rejected, and on a concrete 3-D
array the two strategies agree. -/
theorem C8_fallback_rejects_high_dims_witness :
    convolveFallback 3 [[[[(1 : ℚ)]]]] [1] = .error fallbackDimMsg ∧
      convolveFallback 2 [[[(1 : ℚ)]]] [1] =
        convolveBroadcast 2 [[[(1 : ℚ)]]] [1] :=
  ⟨(C8_fallback_rejects_high_dims 0).1 [[[[(1 : ℚ)]]]] [1],
    (C8_fallback_rejects_high_dims 2).2 (by omega) [[[(1 : ℚ)]]] [1]⟩

/-- C5: for every integer `n_items ≥ 2`, `_npairs` returns exactly
`n_items * (n_items + 1) / 2`, the number of unordered pairs including
self-pairs. -/
theorem C5_npairs_value (n : ℤ) (h : 2 ≤ n) :
    ∃ m, _npairs n = .ok m ∧ 2 * m = n * (n + 1) ∧ m = n * (n + 1) / 2 := by
  have he : Even ((n - 1) * n) := by
    have := Int.even_mul_succ_self (n - 1)
    simpa using this
  obtain ⟨k, hk⟩ := he
  have hkpos : 0 ≤ k := by nlinarith [hk]
  have hm2 : 2 * (k + n) = n * (n + 1) := by linear_combination -hk
  refine ⟨k + n, ?_, hm2, ?_⟩
  · have hq : (n : ℚ) * ((n : ℚ) - 1) / 2 + (n : ℚ) = ((k + n : ℤ) : ℚ) := by
      have h2 : ((n : ℚ) - 1) * (n : ℚ) = (k : ℚ) + (k : ℚ) := by
        exact_mod_cast congrArg (Int.cast : ℤ → ℚ) hk
      push_cast
      linear_combination h2 / 2
    have hnot : ¬ n < 2 := by omega
    simp only [_npairs, if_neg hnot, hq, pyInt]
    rw [if_neg (by exact not_lt.mpr (by exact_mod_cast (by omega : (0:ℤ) ≤ k + n))),
      Int.floor_intCast]
  · generalize hp : n * (n + 1) = p at hm2 ⊢
    omega

/-- Witness for C5 at `n_items = 3`. -/
theorem C5_npairs_value_witness :
    (2 : ℤ) ≤ 3 ∧ ∃ m, _npairs 3 = .ok m ∧ 2 * m = 3 * (3 + 1) ∧ m = 3 * (3 + 1) / 2 :=
  ⟨by decide, C5_npairs_value 3 (by decide)⟩

/-- C7: `_npairs` fails, with an error message naming the invalid count,
exactly when `n_items < 2`, and succeeds for every `n_items ≥ 2`. -/
theorem C7_npairs_error_iff (n : ℤ) :
    (n < 2 → _npairs n = .error ("More than two items required, passed " ++ toString n)) ∧
    (2 ≤ n → (_npairs n).isOk = true) := by
  constructor
  · intro h
    simp [_npairs, h]
  · intro h
    have hnot : ¬ n < 2 := by omega
    simp [_npairs, hnot, Except.isOk, Except.toBool]

/-- Witness for C7 at `n_items = 1` (error) and `n_items = 2` (success). -/
theorem C7_npairs_error_iff_witness :
    _npairs 1 = .error ("More than two items required, passed " ++ toString (1 : ℤ)) ∧
      (_npairs 2).isOk = true :=
  ⟨(C7_npairs_error_iff 1).1 (by decide), (C7_npairs_error_iff 2).2 (by decide)⟩

/-- C6: `_get_unique_targets` returns an ascending, duplicate-free sequence
containing exactly the labels present in both inputs; in particular it is
empty, with no error, when the inputs share no label. -/
theorem C6_unique_targets_sorted_intersection (targets_train targets_test : List ℤ) :
    List.Sorted (· < ·) (_get_unique_targets targets_train targets_test) ∧
    (_get_unique_targets targets_train targets_test).Nodup ∧
    ∀ x, x ∈ _get_unique_targets targets_train targets_test ↔
      (x ∈ targets_train ∧ x ∈ targets_test) := by
  refine ⟨Finset.sort_sorted_lt _, Finset.sort_nodup _ _, fun x => ?_⟩
  simp [_get_unique_targets, npUnique, Finset.mem_sort, Finset.mem_inter,
    List.mem_toFinset]

end Meegnobis

namespace Meegnobis

theorem set_append_singleton (l : List α) (b v : α) :
    (l ++ [b]).set l.length v = l ++ [v] := by
  induction l with
  | nil => rfl
  | cons x xs ih => simp [List.set, ih]

theorem getD_take_of_lt (l : List α) (n i : ℕ) (d : α) (h : i < n) :
    (l.take n).getD i d = l.getD i d := by
  simp [List.getD, List.getElem?_take, h]

/-- C4: `moving_average` does not mutate its input.  On the store level the
call leaves every pre-existing buffer — in particular the input epoch's data
buffer — untouched, whether it succeeds or raises: only the freshly
allocated copy is ever written. -/
theorem C4_moving_average_no_mutation (modern : Bool) (s : Store)
    (e : EpochsRef) (tw : ℚ) :
    ((moving_averageRef modern s e tw).1).take s.length = s ∧
    (e.dataRef < s.length →
      ((moving_averageRef modern s e tw).1).getD e.dataRef [] = s.getD e.dataRef []) := by
  have htake : ((moving_averageRef modern s e tw).1).take s.length = s := by
    unfold moving_averageRef
    cases hm : maCore modern ((s ++ [s.getD e.dataRef []]).getD s.length []) e.sfreq e.times tw with
    | error m =>
      simp only [hm]
      exact List.take_left s [s.getD e.dataRef []]
    | ok d =>
      simp only [hm]
      rw [set_append_singleton]
      exact List.take_left s [d]
  refine ⟨htake, fun hi => ?_⟩
  conv_rhs => rw [← htake]
  rw [getD_take_of_lt _ _ _ _ hi]

/-- Witness for C4 at a concrete one-buffer store. -/
theorem C4_moving_average_no_mutation_witness :
    ((moving_averageRef true [[[[(1 : ℚ), 2]]]] ⟨0, 1, [0, 1]⟩ 1).1).take 1 =
        [[[[(1 : ℚ), 2]]]] ∧
      ((moving_averageRef true [[[[(1 : ℚ), 2]]]] ⟨0, 1, [0, 1]⟩ 1).1).getD 0 [] =
        ([[[[(1 : ℚ), 2]]]] : Store).getD 0 [] :=
  ⟨(C4_moving_average_no_mutation true [[[[(1 : ℚ), 2]]]] ⟨0, 1, [0, 1]⟩ 1).1,
    (C4_moving_average_no_mutation true [[[[(1 : ℚ), 2]]]] ⟨0, 1, [0, 1]⟩ 1).2
      (by decide)⟩

end Meegnobis

namespace Meegnobis

theorem map_range_getD (l : List β) (f : β → γ) (d : β) :
    (List.range l.length).map (fun c => f (l.getD c d)) = l.map f := by
  apply List.ext_getElem
  · simp
  · intro i h1 h2
    simp only [List.getElem_map, List.getElem_range]
    rw [List.getD_eq_getElem l d (by simpa using h2)]

theorem getD_map_of_lt (l : List β) (f : β → γ) (i : ℕ) (d : β) (d' : γ)
    (h : i < l.length) :
    (l.map f).getD i d' = f (l.getD i d) := by
  rw [List.getD_eq_getElem _ _ (by simpa using h), List.getD_eq_getElem _ _ h,
    List.getElem_map]

theorem transpose_map_transpose (g : List ℚ → List ℚ)
    (d : List (List (List ℚ))) (nc : ℕ) (hnc : 0 < nc)
    (hrect : ∀ t ∈ d, t.length = nc) :
    transposeOuter ((transposeOuter d []).map (List.map g)) [] =
      d.map (List.map g) := by
  cases d with
  | nil => simp [transposeOuter]
  | cons t0 rest =>
    have h0 : t0.length = nc := hrect t0 (List.mem_cons_self t0 rest)
    have hX : (transposeOuter (t0 :: rest) []).map (List.map g) =
        (List.range nc).map fun c =>
          (t0 :: rest).map fun row => g (row.getD c []) := by
      rw [transposeOuter]
      simp [List.headD_cons, h0, List.map_map, Function.comp]
    rw [hX]
    obtain ⟨m, rfl⟩ : ∃ m, nc = m + 1 := ⟨nc - 1, by omega⟩
    rw [transposeOuter]
    have hhead : ((List.range (m + 1)).map fun c =>
          (t0 :: rest).map fun row => g (row.getD c [])).headD [] =
        (t0 :: rest).map fun row => g (row.getD 0 []) := by
      rw [List.range_succ_eq_map]
      simp
    rw [hhead, List.length_map]
    conv_rhs => rw [← map_range_getD (t0 :: rest) (List.map g) []]
    refine List.map_congr_left fun i hi => ?_
    have hiD : i < (t0 :: rest).length := List.mem_range.mp hi
    rw [List.map_map]
    have hpt : ∀ c : ℕ,
        (((t0 :: rest).map fun row => g (row.getD c [])).getD i []) =
          g (((t0 :: rest).getD i []).getD c []) := fun c =>
      getD_map_of_lt (t0 :: rest) _ i [] [] hiD
    have hlen : (((t0 :: rest).getD i []) : List (List ℚ)).length = m + 1 := by
      rw [List.getD_eq_getElem _ [] hiD]
      exact hrect _ (List.getElem_mem hiD)
    calc ((List.range (m + 1)).map fun c =>
            (((t0 :: rest).map fun row => g (row.getD c [])).getD i []))
        = (List.range (m + 1)).map fun c =>
            g (((t0 :: rest).getD i []).getD c []) :=
          List.map_congr_left fun c _ => hpt c
      _ = ((t0 :: rest).getD i []).map g := by
          rw [← hlen]
          exact map_range_getD ((t0 :: rest).getD i []) g []

end Meegnobis

namespace Meegnobis

theorem convolveBroadcast_3d_ok (d1 : List (List (List ℚ))) (filt : List ℚ)
    (hf : filt ≠ []) (hs : ∀ col ∈ d1, ∀ s ∈ col, s ≠ []) :
    convolveBroadcast 2 d1 filt =
      .ok (d1.map (List.map fun s => truncConv s filt)) := by
  rw [convolveBroadcast_succ]
  apply exMap_ok_map
  intro col hcol
  rw [convolveBroadcast_succ]
  apply exMap_ok_map
  intro s hsmem
  rw [convolveBroadcast_zero]
  exact _conv_ok (hs col hcol s hsmem) hf

theorem maCore_ok (modern : Bool) (d : List (List (List ℚ))) (sfreq : ℚ)
    (times : List ℚ) (tw : ℚ) (nc : ℕ)
    (hceil : 0 < ⌈tw * sfreq⌉) (hguard : ⌈tw * sfreq⌉ ≤ (times.length : ℤ))
    (hnc : 0 < nc) (hrect : ∀ t ∈ d, t.length = nc)
    (hser : ∀ t ∈ d, ∀ s ∈ t, s.length = times.length) :
    maCore modern d sfreq times tw =
      .ok (d.map (List.map fun s => truncConv s (maFilter tw sfreq))) := by
  have htimes : 0 < times.length := by
    have h1 : (0 : ℤ) < (times.length : ℤ) := lt_of_lt_of_le hceil hguard
    exact_mod_cast h1
  have hfilt : maFilter tw sfreq ≠ [] := by
    have : (⌈tw * sfreq⌉).toNat ≠ 0 := by omega
    simp [maFilter, this]
  have hTs : ∀ col ∈ transposeOuter d [], ∀ s ∈ col, s ≠ [] := by
    intro col hcol s hsmem
    rw [transposeOuter] at hcol
    obtain ⟨c, hc, rfl⟩ := List.mem_map.mp hcol
    obtain ⟨row, hrow, rfl⟩ := List.mem_map.mp hsmem
    have hrl : row.length = nc := hrect row hrow
    have hcnc : c < nc := by
      rcases d with _ | ⟨t0, rest⟩
      · simp at hrow
      · have ht0 : t0.length = nc := hrect t0 (List.mem_cons_self t0 rest)
        have hc' := List.mem_range.mp hc
        simpa [List.headD_cons, ht0] using hc'
    have hclt : c < row.length := by omega
    rw [List.getD_eq_getElem row [] hclt]
    have hlen : (row[c]).length = times.length :=
      hser row hrow _ (List.getElem_mem hclt)
    intro hnil
    rw [hnil] at hlen
    simp at hlen
    omega
  unfold maCore
  rw [if_neg (not_lt.mpr hguard), if_neg (not_lt.mpr (le_of_lt hceil)),
    convolve_two_eq, convolveBroadcast_3d_ok _ _ hfilt hTs]
  exact congrArg Except.ok
    (transpose_map_transpose (fun s => truncConv s (maFilter tw sfreq)) d nc hnc hrect)

theorem moving_average_ok (modern : Bool) (e : Epochs) (tw : ℚ) (nc : ℕ)
    (hceil : 0 < ⌈tw * e.sfreq⌉) (hguard : ⌈tw * e.sfreq⌉ ≤ (e.times.length : ℤ))
    (hnc : 0 < nc) (hrect : ∀ t ∈ e.data, t.length = nc)
    (hser : ∀ t ∈ e.data, ∀ s ∈ t, s.length = e.times.length) :
    moving_average modern e tw =
      .ok ⟨e.data.map (List.map fun s => truncConv s (maFilter tw e.sfreq)),
        e.sfreq, e.times⟩ := by
  unfold moving_average
  rw [maCore_ok modern e.data e.sfreq e.times tw nc hceil hguard hnc hrect hser]

end Meegnobis

namespace Meegnobis

theorem sameShape_succ_true_iff (n : Nat) (a b : NDArr (n + 1)) :
    sameShape (n + 1) a b = true ↔
      a.length = b.length ∧ ∀ p ∈ a.zip b, sameShape n p.1 p.2 = true := by
  rw [sameShape_succ]
  simp [List.all_eq_true]

theorem sameShape_one_map (g : List ℚ → List ℚ)
    (hg : ∀ s : List ℚ, (g s).length = s.length) :
    ∀ t : List (List ℚ), sameShape 1 (t.map g) t = true := by
  intro t
  induction t with
  | nil => rfl
  | cons s rest ih =>
    rw [sameShape_succ_true_iff] at ih ⊢
    obtain ⟨-, ihall⟩ := ih
    refine ⟨by simp, ?_⟩
    intro p hp
    simp only [List.map_cons, List.zip_cons_cons] at hp
    rcases List.mem_cons.mp hp with h | h
    · subst h
      simp [sameShape_zero, hg s]
    · exact ihall p h

theorem sameShape_map_map (g : List ℚ → List ℚ)
    (hg : ∀ s : List ℚ, (g s).length = s.length) :
    ∀ d : List (List (List ℚ)), sameShape 2 (d.map (List.map g)) d = true := by
  intro d
  induction d with
  | nil => rfl
  | cons t rest ih =>
    rw [sameShape_succ_true_iff] at ih ⊢
    obtain ⟨-, ihall⟩ := ih
    refine ⟨by simp, ?_⟩
    intro p hp
    simp only [List.map_cons, List.zip_cons_cons] at hp
    rcases List.mem_cons.mp hp with h | h
    · subst h
      exact sameShape_one_map g hg t
    · exact ihall p h

/-- C2: for every epoch and positive window passing the window check,
`moving_average` builds the uniform filter of length
`nsamples = ceil(twindow * sfreq)` with every weight `1 / nsamples`, smooths
every (trial, channel) time series independently with the left-aligned
convolution, preserves the data shape, and carries the metadata over into a
new epoch container. -/
theorem C2_moving_average_smooths (modern : Bool) (e : Epochs) (tw : ℚ) (nc : ℕ)
    (htw : 0 < tw) (hsf : 0 < e.sfreq)
    (hguard : ⌈tw * e.sfreq⌉ ≤ (e.times.length : ℤ))
    (hnc : 0 < nc) (hrect : ∀ t ∈ e.data, t.length = nc)
    (hser : ∀ t ∈ e.data, ∀ s ∈ t, s.length = e.times.length) :
    moving_average modern e tw =
        .ok ⟨e.data.map (List.map fun s => truncConv s (maFilter tw e.sfreq)),
          e.sfreq, e.times⟩ ∧
      (maFilter tw e.sfreq).length = (⌈tw * e.sfreq⌉).toNat ∧
      (∀ w ∈ maFilter tw e.sfreq, w = 1 / ((⌈tw * e.sfreq⌉ : ℤ) : ℚ)) ∧
      sameShape 2 (e.data.map (List.map fun s => truncConv s (maFilter tw e.sfreq)))
        e.data = true := by
  have hceil : 0 < ⌈tw * e.sfreq⌉ := Int.ceil_pos.mpr (mul_pos htw hsf)
  have hfilt : maFilter tw e.sfreq ≠ [] := by
    have : (⌈tw * e.sfreq⌉).toNat ≠ 0 := by omega
    simp [maFilter, this]
  refine ⟨moving_average_ok modern e tw nc hceil hguard hnc hrect hser, ?_, ?_, ?_⟩
  · simp [maFilter]
  · intro w hw
    exact List.eq_of_mem_replicate hw
  · exact sameShape_map_map _ (fun s => truncConv_length s hfilt) e.data

/-- Witness for C2 at a concrete one-trial, one-channel epoch with a
two-sample window. -/
theorem C2_moving_average_smooths_witness :
    moving_average true ⟨[[[2, 4]]], 1, [0, 1]⟩ 2 =
      .ok ⟨([[[(2 : ℚ), 4]]] : List (List (List ℚ))).map
          (List.map fun s => truncConv s (maFilter 2 1)),
        1, [0, 1]⟩ :=
  (C2_moving_average_smooths true ⟨[[[2, 4]]], 1, [0, 1]⟩ 2 1
    (by decide) (by decide) (by norm_num) (by decide) (by decide) (by decide)).1

/-- C3: under the documented input contract (positive window, positive
sampling frequency, well-formed nonempty epoch), `moving_average` raises the
window `ValueError` exactly when `nsamples = ceil(twindow * sfreq)` strictly
exceeds the number of time samples — a window of exactly the epoch length
succeeds — and it succeeds (producing an output) in every other case. -/
theorem C3_moving_average_window_error_iff (modern : Bool) (e : Epochs) (tw : ℚ)
    (nc : ℕ) (htw : 0 < tw) (hsf : 0 < e.sfreq) (_htne : e.times ≠ [])
    (hnc : 0 < nc) (hrect : ∀ t ∈ e.data, t.length = nc)
    (hser : ∀ t ∈ e.data, ∀ s ∈ t, s.length = e.times.length) :
    (moving_average modern e tw = .error (maWindowError tw e.times) ↔
        (e.times.length : ℤ) < ⌈tw * e.sfreq⌉) ∧
      ((moving_average modern e tw).isOk = true ↔
        ⌈tw * e.sfreq⌉ ≤ (e.times.length : ℤ)) := by
  have hceil : 0 < ⌈tw * e.sfreq⌉ := Int.ceil_pos.mpr (mul_pos htw hsf)
  by_cases hg : (e.times.length : ℤ) < ⌈tw * e.sfreq⌉
  · have herr : moving_average modern e tw = .error (maWindowError tw e.times) := by
      simp [moving_average, maCore, hg]
    refine ⟨⟨fun _ => hg, fun _ => herr⟩, ?_⟩
    rw [herr]
    simp [Except.isOk, Except.toBool]
    omega
  · have hok := moving_average_ok modern e tw nc hceil (not_lt.mp hg) hnc hrect hser
    constructor
    · rw [hok]
      simp
      omega
    · rw [hok]
      simp [Except.isOk, Except.toBool]
      omega

/-- Witness for C3: with one time sample and a two-second window at 1 Hz the
window check fails with the window error. -/
theorem C3_moving_average_window_error_iff_witness :
    moving_average true ⟨[[[5]]], 1, [0]⟩ 2 = .error (maWindowError 2 [0]) ↔
      ((([(0 : ℚ)] : List ℚ).length : ℤ) < ⌈(2 : ℚ) * 1⌉) :=
  (C3_moving_average_window_error_iff true ⟨[[[5]]], 1, [0]⟩ 2 1
    (by decide) (by decide) (by decide) (by decide) (by decide) (by decide)).1

/-- C9: a window of exactly one sample duration `1 / sfreq` yields the
length-1 filter `[1]` and `moving_average` returns the epoch unchanged. -/
theorem C9_one_sample_window_identity (modern : Bool) (e : Epochs) (nc : ℕ)
    (hsf : 0 < e.sfreq) (htlen : 0 < e.times.length)
    (hnc : 0 < nc) (hrect : ∀ t ∈ e.data, t.length = nc)
    (hser : ∀ t ∈ e.data, ∀ s ∈ t, s.length = e.times.length) :
    maFilter (1 / e.sfreq) e.sfreq = [1] ∧
      moving_average modern e (1 / e.sfreq) = .ok e := by
  have hone : (1 / e.sfreq) * e.sfreq = 1 := one_div_mul_cancel (ne_of_gt hsf)
  have hceil1 : ⌈(1 / e.sfreq) * e.sfreq⌉ = 1 := by rw [hone]; exact Int.ceil_one
  have hfil : maFilter (1 / e.sfreq) e.sfreq = [1] := by
    rw [maFilter, hceil1]
    norm_num
  refine ⟨hfil, ?_⟩
  have hok := moving_average_ok modern e (1 / e.sfreq) nc
    (by rw [hceil1]; omega) (by rw [hceil1]; omega) hnc hrect hser
  rw [hfil] at hok
  rw [hok]
  obtain ⟨d, sf, ts⟩ := e
  simp [truncConv_single]

/-- Witness for C9 at a concrete epoch sampled at 1 Hz. -/
theorem C9_one_sample_window_identity_witness :
    maFilter (1 / (1 : ℚ)) 1 = [1] ∧
      moving_average true ⟨[[[3, 4]]], 1, [0, 1]⟩ (1 / (1 : ℚ)) =
        .ok ⟨[[[3, 4]]], 1, [0, 1]⟩ :=
  C9_one_sample_window_identity true ⟨[[[3, 4]]], 1, [0, 1]⟩ 1
    (by decide) (by decide) (by decide) (by decide) (by decide)

end Meegnobis

namespace Meegnobis

/-- C10: when `nsamples = ceil(twindow * sfreq)` evaluates to 0 (e.g. for
`twindow = 0`) the strict window check passes, so no window `ValueError` is
raised; `moving_average` builds a length-0 filter and hands it to the
convolution primitive, and the failure that surfaces is the primitive's own
empty-filter error, not the module's window error. -/
theorem C10_zero_window_passes_guard (modern : Bool) (e : Epochs) (tw : ℚ)
    (hceil : ⌈tw * e.sfreq⌉ = 0)
    (hd : e.data ≠ []) (hch : e.data.headD [] ≠ [])
    (hs0 : (e.data.headD []).headD [] ≠ []) :
    ¬ ((e.times.length : ℤ) < ⌈tw * e.sfreq⌉) ∧
      maFilter tw e.sfreq = [] ∧
      moving_average modern e tw = .error "v cannot be empty" := by
  obtain ⟨d, sf, ts⟩ := e
  simp only at hceil hd hch hs0 ⊢
  have hg1 : ¬ ((ts.length : ℤ) < ⌈tw * sf⌉) := by rw [hceil]; omega
  have hg2 : ¬ (⌈tw * sf⌉ < 0) := by rw [hceil]; omega
  have hfil : maFilter tw sf = [] := by simp [maFilter, hceil]
  refine ⟨hg1, hfil, ?_⟩
  rcases d with - | ⟨t0, rest⟩
  · exact absurd rfl hd
  rcases t0 with - | ⟨s0, t0r⟩
  · exact absurd rfl hch
  rcases s0 with - | ⟨q, s0r⟩
  · exact absurd rfl hs0
  have hconv : _conv (q :: s0r) (maFilter tw sf) = .error "v cannot be empty" := by
    rw [hfil]
    simp [_conv, npConvolve, Except.map]
  simp only [moving_average, maCore, if_neg hg1, if_neg hg2, convolve_two_eq,
    transposeOuter, List.headD_cons, List.length_cons, List.range_succ_eq_map,
    List.map_cons, List.getD_cons_zero, convolveBroadcast_succ,
    convolveBroadcast_zero, exMap, hconv]

end Meegnobis

namespace Meegnobis

/-- Witness for C10: `twindow = 0` at 1 Hz on a two-sample epoch passes the
window check, builds the empty filter, and fails with the primitive's
empty-filter error. -/
theorem C10_zero_window_passes_guard_witness :
    ¬ ((([(0 : ℚ), 1] : List ℚ).length : ℤ) < ⌈(0 : ℚ) * 1⌉) ∧
      maFilter 0 1 = [] ∧
      moving_average true ⟨[[[1, 2]]], 1, [0, 1]⟩ 0 = .error "v cannot be empty" :=
  C10_zero_window_passes_guard true ⟨[[[1, 2]]], 1, [0, 1]⟩ 0
    (by norm_num) (by decide) (by decide) (by decide)

end Meegnobis
